import Mathlib

/-!
Shallow embedding of the decomposition core of
`src/scripts/Price vs Fundamentals/build_price_vs_fundamentals.py`.

Floating point numbers are modelled by exact reals (`ℝ`), and pandas
missing values (`NaN`) by `Option ℝ` (`none` = missing / NaN).  Dates are
month-granular and modelled as natural numbers (an abstract month index,
the image of `to_month_start`).
-/

namespace PvF

/-- A raw CSV row after column identification: a possibly unparseable
date, and the raw numeric price / PE fields (missing = `none`). -/
structure RawRow where
  date : Option ℕ
  price : Option ℝ
  pe : Option ℝ

/-- An intermediate loader row with a parsed (month-truncated) date. -/
structure LRow where
  date : ℕ
  price : Option ℝ
  pe : Option ℝ

/-- A normalized panel row: `date, price, pe, eps` as produced by
`load_pe_monthly` (`eps` is the implied EPS). -/
structure Row where
  date : ℕ
  price : Option ℝ
  pe : Option ℝ
  eps : Option ℝ

/-- `safe_pos` (line 38): coerce to numeric and keep only strictly
positive values (`x.where(x > 0, np.nan)`). -/
noncomputable def safe_pos : Option ℝ → Option ℝ
  | none => none
  | some v => if 0 < v then some v else none

/-- Pandas elementwise division with NaN propagation: `a / b` is missing
as soon as either operand is missing. -/
noncomputable def optDiv : Option ℝ → Option ℝ → Option ℝ
  | some a, some b => some (a / b)
  | _, _ => none

/-- The implied-value deriver as composed in the source: the raw price
and multiple are first passed through `safe_pos` (lines 62 and 67) and
the quotient is passed through `safe_pos` again (line 76). -/
noncomputable def derive_implied (price pe : Option ℝ) : Option ℝ :=
  safe_pos (optDiv (safe_pos price) (safe_pos pe))

/-- Last non-missing entry of a column, as `groupby(...).last()` computes
it per column (pandas `GroupBy.last` skips nulls). -/
def lastSome (xs : List (Option ℝ)) : Option ℝ :=
  xs.foldl (fun acc x => match x with | some v => some v | none => acc) none

/-- Date order on intermediate loader rows (`sort_values("date")`). -/
def ldateLe (a b : LRow) : Prop := a.date ≤ b.date

instance : DecidableRel ldateLe := fun a b => Nat.decLe a.date b.date

/-- `load_pe_monthly` (lines 46-78), after CSV parsing and column
identification: normalize price and pe through `safe_pos`, drop rows
without a date, sort ascending by date (stably), deduplicate to one row
per month where each column keeps its last non-missing value within the
month (`groupby("date").last()`), then derive `eps = safe_pos(price/pe)`. -/
noncomputable def load_pe_monthly (rows : List RawRow) : List Row :=
  let cleaned : List LRow :=
    rows.filterMap (fun r =>
      r.date.map (fun d => { date := d, price := safe_pos r.price, pe := safe_pos r.pe }))
  let sorted := List.insertionSort ldateLe cleaned
  (sorted.map (fun r => r.date)).dedup.map (fun d =>
    let grp := sorted.filter (fun r => r.date == d)
    let price := lastSome (grp.map (fun r => r.price))
    let pe := lastSome (grp.map (fun r => r.pe))
    { date := d, price := price, pe := pe, eps := safe_pos (optDiv price pe) })

/-- A row is kept by `dropna(subset=["price", "pe", "eps"])` iff all
three fields are present. -/
def validRow (r : Row) : Bool :=
  r.price.isSome && r.pe.isSome && r.eps.isSome

/-- Endpoint decomposition result (the dict built at lines 109-117).
`NaN` shares are `none`.  `stop` is the source's `end` field. -/
structure EndpointResult where
  start : ℕ
  stop : ℕ
  log_price : ℝ
  log_eps : ℝ
  log_multiple : ℝ
  share_eps_pct : Option ℝ
  share_multiple_pct : Option ℝ

/-- The error raised at line 91 ("Not enough valid rows after cleaning"). -/
inductive DecompErr where
  | insufficientData

/-- The arithmetic core of `decompose_endpoints` (lines 96-117) applied
to the first and last valid rows `s` and `e`.  The `getD 0` defaults are
never reached on valid rows. -/
noncomputable def mkEndpoint (s e : Row) : EndpointResult :=
  let p0 := s.price.getD 0
  let p1 := e.price.getD 0
  let eps0 := s.eps.getD 0
  let eps1 := e.eps.getD 0
  let pe0 := s.pe.getD 0
  let pe1 := e.pe.getD 0
  let log_price := Real.log (p1 / p0)
  let log_eps := Real.log (eps1 / eps0)
  let log_mult := Real.log (pe1 / pe0)
  let denom : Option ℝ := if 1e-12 < |log_price| then some log_price else none
  { start := s.date, stop := e.date,
    log_price := log_price, log_eps := log_eps, log_multiple := log_mult,
    share_eps_pct := denom.map (fun dn => 100 * (log_eps / dn)),
    share_multiple_pct := denom.map (fun dn => 100 * (log_mult / dn)) }

/-- `decompose_endpoints` (lines 84-117): drop invalid rows, require at
least two of them, then decompose between the first and the last. -/
noncomputable def decompose_endpoints (panel : List Row) : Except DecompErr EndpointResult :=
  match panel.filter validRow with
  | [] => .error .insufficientData
  | [_] => .error .insufficientData
  | a :: b :: rest => .ok (mkEndpoint a ((b :: rest).getLast (List.cons_ne_nil b rest)))

/-- One rolling output row (the dict built at lines 159-171). -/
structure RollingRec where
  ticker : String
  start : ℕ
  stop : ℕ
  log_price : ℝ
  log_eps : ℝ
  log_multiple : ℝ
  stable_for_shares : Bool
  share_eps_pct : Option ℝ
  share_multiple_pct : Option ℝ

/-- `np.clip(x, -cap, cap)`. -/
noncomputable def clip (cap x : ℝ) : ℝ := min cap (max (-cap) x)

/-- Lines 143-171: build one rolling record from an endpoint result.
`np.isfinite(log_price)` always holds over exact reals, so the stability
gate reduces to the threshold test; shares are emitted (and clipped)
only when stable. -/
noncomputable def mkRollingRec (ticker : String) (minAbs cap : ℝ)
    (d : EndpointResult) : RollingRec :=
  { ticker := ticker, start := d.start, stop := d.stop,
    log_price := d.log_price, log_eps := d.log_eps, log_multiple := d.log_multiple,
    stable_for_shares := decide (minAbs ≤ |d.log_price|),
    share_eps_pct :=
      if minAbs ≤ |d.log_price| then d.share_eps_pct.map (clip cap) else none,
    share_multiple_pct :=
      if minAbs ≤ |d.log_price| then d.share_multiple_pct.map (clip cap) else none }

/-- Date order on panel rows. -/
def dateLe (a b : Row) : Prop := a.date ≤ b.date

instance : DecidableRel dateLe := fun a b => Nat.decLe a.date b.date

/-- Line 133: `panel.dropna(...).sort_values("date").reset_index(drop=True)`. -/
noncomputable def sortPanel (panel : List Row) : List Row :=
  List.insertionSort dateLe (panel.filter validRow)

/-- The sub-series `p.iloc[i - window : i + 1]` of line 137. -/
noncomputable def rollWindow (panel : List Row) (window i : ℕ) : List Row :=
  ((sortPanel panel).drop (i - window)).take (window + 1)

/-- `rolling_decomposition` (lines 120-173): for each `i` in
`range(window, len(p))` decompose the sub-series; a failing window is
skipped (`except Exception: continue`), a succeeding one is emitted. -/
noncomputable def rolling_decomposition (panel : List Row) (ticker : String)
    (window : ℕ) (minAbs cap : ℝ) : List RollingRec :=
  ((List.range (sortPanel panel).length).drop window).filterMap (fun i =>
    match decompose_endpoints (rollWindow panel window i) with
    | .error _ => none
    | .ok d => some (mkRollingRec ticker minAbs cap d))

/-- A row whose price and multiple are present and positive and whose
`eps` is exactly the implied value `price / pe` — the shape every row
produced by `load_pe_monthly` has when all three fields are present. -/
def goodRow (r : Row) : Prop :=
  ∃ p m, r.price = some p ∧ r.pe = some m ∧ 0 < p ∧ 0 < m ∧ r.eps = some (p / m)

/-- All present fields of the row are positive (the invariant `safe_pos`
establishes on the loader's output). -/
def fieldsPos (r : Row) : Prop :=
  (∀ p, r.price = some p → 0 < p) ∧ (∀ m, r.pe = some m → 0 < m) ∧
    (∀ v, r.eps = some v → 0 < v)

/-- The claim's notion of a valid row: price, multiple and implied value
all present and strictly positive. -/
noncomputable def validPosRow (r : Row) : Bool :=
  match r.price, r.pe, r.eps with
  | some p, some m, some v => decide (0 < p) && decide (0 < m) && decide (0 < v)
  | _, _, _ => false

/-- Concrete two-row panel: prices 1 and e, multiples 1 and e, implied
value 1 at both rows (so `log_price = 1`, `log_eps = 0`,
`log_multiple = 1`). -/
noncomputable def panelExp : List Row :=
  [{ date := 0, price := some 1, pe := some 1, eps := some 1 },
   { date := 1, price := some (Real.exp 1), pe := some (Real.exp 1), eps := some 1 }]

/-- Concrete two-row panel with every field equal to 1 (all log changes
are 0). -/
noncomputable def panelOnes : List Row :=
  [{ date := 0, price := some 1, pe := some 1, eps := some 1 },
   { date := 1, price := some 1, pe := some 1, eps := some 1 }]

/-- The endpoint result of `decompose_endpoints panelExp`. -/
noncomputable def dExpRec : EndpointResult :=
  { start := 0, stop := 1, log_price := 1, log_eps := 0, log_multiple := 1,
    share_eps_pct := some 0, share_multiple_pct := some 100 }

/-- The single record of `rolling_decomposition panelExp "T" 1 0 200`. -/
noncomputable def rExpRec : RollingRec :=
  { ticker := "T", start := 0, stop := 1, log_price := 1, log_eps := 0,
    log_multiple := 1, stable_for_shares := true,
    share_eps_pct := some 0, share_multiple_pct := some 100 }

/-- The single record of `rolling_decomposition panelOnes "T" 1 0 200`:
the stability threshold 0 is met with equality (`|log_price| = 0`), so
the record is stable, yet the shares' denominator is below `1e-12` and
the shares stay absent. -/
noncomputable def rOnesRec0 : RollingRec :=
  { ticker := "T", start := 0, stop := 1, log_price := 0, log_eps := 0,
    log_multiple := 0, stable_for_shares := true,
    share_eps_pct := none, share_multiple_pct := none }

/-- The single record of `rolling_decomposition panelOnes "T" 1 1 200`:
unstable (`|log_price| = 0 < 1`), shares absent. -/
noncomputable def rOnesRec1 : RollingRec :=
  { ticker := "T", start := 0, stop := 1, log_price := 0, log_eps := 0,
    log_multiple := 0, stable_for_shares := false,
    share_eps_pct := none, share_multiple_pct := none }

/-- Raw loader input with two rows in the same month: the earlier row has
a valid price and an invalid multiple, the later row the reverse. -/
noncomputable def rawEx : List RawRow :=
  [{ date := some 0, price := some 10, pe := some (-1) },
   { date := some 0, price := some (-1), pe := some 7 }]

/-- The endpoint result of `decompose_endpoints panelOnes`: all log
changes 0, shares absent (denominator below `1e-12`). -/
noncomputable def dOnesRec : EndpointResult :=
  { start := 0, stop := 1, log_price := 0, log_eps := 0, log_multiple := 0,
    share_eps_pct := none, share_multiple_pct := none }

/-! ### Helper lemmas -/

theorem decompose_error_iff (panel : List Row) :
    decompose_endpoints panel = .error .insufficientData ↔
      (panel.filter validRow).length < 2 := by
  unfold decompose_endpoints
  cases hf : panel.filter validRow with
  | nil => simp
  | cons a l =>
    cases l with
    | nil => simp
    | cons b rest => simp

theorem decompose_ok_of_two_le {panel : List Row}
    (h : 2 ≤ (panel.filter validRow).length) :
    ∃ d, decompose_endpoints panel = .ok d := by
  cases hd : decompose_endpoints panel with
  | ok d => exact ⟨d, rfl⟩
  | error e =>
    cases e
    exact absurd ((decompose_error_iff panel).mp hd) (by omega)

theorem log_decomp {p0 p1 m0 m1 : ℝ} (hp0 : 0 < p0) (hp1 : 0 < p1)
    (hm0 : 0 < m0) (hm1 : 0 < m1) :
    Real.log (p1 / p0) = Real.log ((p1 / m1) / (p0 / m0)) + Real.log (m1 / m0) := by
  rw [Real.log_div (ne_of_gt hp1) (ne_of_gt hp0),
    Real.log_div (ne_of_gt (div_pos hp1 hm1)) (ne_of_gt (div_pos hp0 hm0)),
    Real.log_div (ne_of_gt hp1) (ne_of_gt hm1),
    Real.log_div (ne_of_gt hp0) (ne_of_gt hm0),
    Real.log_div (ne_of_gt hm1) (ne_of_gt hm0)]
  ring

theorem decompose_ok_shape {panel : List Row} {d : EndpointResult}
    (hd : decompose_endpoints panel = .ok d) :
    ∃ s e, s ∈ panel.filter validRow ∧ e ∈ panel.filter validRow ∧
      d = mkEndpoint s e := by
  unfold decompose_endpoints at hd
  cases hf : panel.filter validRow with
  | nil => rw [hf] at hd; exact absurd hd (by simp)
  | cons a l =>
    cases l with
    | nil => rw [hf] at hd; exact absurd hd (by simp)
    | cons b rest =>
      rw [hf] at hd
      simp only [Except.ok.injEq] at hd
      exact ⟨a, (b :: rest).getLast (List.cons_ne_nil b rest),
        List.mem_cons_self a _,
        List.mem_cons_of_mem a (List.getLast_mem (List.cons_ne_nil b rest)),
        hd.symm⟩

theorem decompose_ok_additive {panel : List Row} {d : EndpointResult}
    (hd : decompose_endpoints panel = .ok d)
    (hgood : ∀ x ∈ panel.filter validRow, goodRow x) :
    d.log_price = d.log_eps + d.log_multiple := by
  obtain ⟨s, e, hs, he, rfl⟩ := decompose_ok_shape hd
  obtain ⟨ps, ms, hsp, hsm, hsp0, hsm0, hse⟩ := hgood s hs
  obtain ⟨pe, me, hep, hem, hep0, hem0, hee⟩ := hgood e he
  show Real.log _ = Real.log _ + Real.log _
  rw [hsp, hsm, hse, hep, hem, hee]
  simp only [Option.getD_some]
  exact log_decomp hsp0 hep0 hsm0 hem0

theorem exists_of_mem_rolling {panel : List Row} {t : String} {w : ℕ}
    {minAbs cap : ℝ} {r : RollingRec}
    (hr : r ∈ rolling_decomposition panel t w minAbs cap) :
    ∃ i d, decompose_endpoints (rollWindow panel w i) = .ok d ∧
      r = mkRollingRec t minAbs cap d := by
  unfold rolling_decomposition at hr
  obtain ⟨i, _, hi⟩ := List.mem_filterMap.mp hr
  cases hd : decompose_endpoints (rollWindow panel w i) with
  | error e => rw [hd] at hi; exact absurd hi (by simp)
  | ok d =>
    rw [hd] at hi
    simp only [Option.some.injEq] at hi
    exact ⟨i, d, hd, hi.symm⟩

theorem rolling_zero_window (panel : List Row) (t : String) (minAbs cap : ℝ) :
    rolling_decomposition panel t 0 minAbs cap = [] := by
  unfold rolling_decomposition
  rw [List.filterMap_eq_nil_iff]
  intro i _
  have hlen : ((rollWindow panel 0 i).filter validRow).length < 2 := by
    have h1 : (rollWindow panel 0 i).length ≤ 1 := by
      unfold rollWindow
      calc _ ≤ 0 + 1 := List.length_take_le _ _
        _ = 1 := by omega
    have := List.length_filter_le validRow (rollWindow panel 0 i)
    omega
  rw [(decompose_error_iff _).mpr hlen]

theorem clip_eq_of_pos {cap : ℝ} (hcap : 0 < cap) (s : ℝ) :
    clip cap s = if cap < |s| then Real.sign s * cap else s := by
  unfold clip
  rcases le_or_lt s 0 with hs | hs
  · rcases lt_or_le s (-cap) with h | h
    · rw [if_pos (by rw [abs_of_nonpos hs]; linarith),
        Real.sign_of_neg (by linarith), max_eq_left (le_of_lt h),
        min_eq_right (by linarith)]
      ring
    · rw [if_neg (by rw [abs_of_nonpos hs]; push_neg; linarith),
        max_eq_right h, min_eq_right (by linarith)]
  · rcases lt_or_le cap s with h | h
    · rw [if_pos (by rw [abs_of_pos hs]; exact h), Real.sign_of_pos hs,
        max_eq_right (by linarith), min_eq_left (le_of_lt h)]
      ring
    · rw [if_neg (by rw [abs_of_pos hs]; push_neg; exact h),
        max_eq_right (by linarith), min_eq_right h]

/-! ### Concrete evaluations -/

theorem filter_valid_panelExp : panelExp.filter validRow = panelExp := by
  simp [panelExp, validRow]

theorem sortPanel_panelExp : sortPanel panelExp = panelExp := by
  rw [sortPanel, filter_valid_panelExp]
  simp [panelExp, List.insertionSort, List.orderedInsert, dateLe]

theorem decompose_panelExp : decompose_endpoints panelExp = .ok dExpRec := by
  unfold decompose_endpoints
  rw [filter_valid_panelExp]
  show Except.ok _ = _
  rw [mkEndpoint, dExpRec]
  norm_num [panelExp, Real.log_exp]

theorem rollWindow_panelExp : rollWindow panelExp 1 1 = panelExp := by
  rw [rollWindow, sortPanel_panelExp]
  simp [panelExp]

theorem roll_panelExp : rolling_decomposition panelExp "T" 1 0 200 = [rExpRec] := by
  unfold rolling_decomposition
  rw [sortPanel_panelExp]
  have hlen : panelExp.length = 2 := by simp [panelExp]
  rw [hlen]
  show List.filterMap _ [1] = _
  simp only [List.filterMap, rollWindow_panelExp, decompose_panelExp]
  rw [mkRollingRec, rExpRec, dExpRec]
  norm_num [clip]

theorem filter_valid_panelOnes : panelOnes.filter validRow = panelOnes := by
  simp [panelOnes, validRow]

theorem sortPanel_panelOnes : sortPanel panelOnes = panelOnes := by
  rw [sortPanel, filter_valid_panelOnes]
  simp [panelOnes, List.insertionSort, List.orderedInsert, dateLe]

theorem decompose_panelOnes : decompose_endpoints panelOnes = .ok dOnesRec := by
  unfold decompose_endpoints
  rw [filter_valid_panelOnes]
  show Except.ok _ = _
  rw [mkEndpoint, dOnesRec]
  norm_num [panelOnes]

theorem rollWindow_panelOnes : rollWindow panelOnes 1 1 = panelOnes := by
  rw [rollWindow, sortPanel_panelOnes]
  simp [panelOnes]

theorem roll_panelOnes0 : rolling_decomposition panelOnes "T" 1 0 200 = [rOnesRec0] := by
  unfold rolling_decomposition
  rw [sortPanel_panelOnes]
  have hlen : panelOnes.length = 2 := by simp [panelOnes]
  rw [hlen]
  show List.filterMap _ [1] = _
  simp only [List.filterMap, rollWindow_panelOnes, decompose_panelOnes]
  rw [mkRollingRec, rOnesRec0, dOnesRec]
  norm_num

theorem roll_panelOnes1 : rolling_decomposition panelOnes "T" 1 1 200 = [rOnesRec1] := by
  unfold rolling_decomposition
  rw [sortPanel_panelOnes]
  have hlen : panelOnes.length = 2 := by simp [panelOnes]
  rw [hlen]
  show List.filterMap _ [1] = _
  simp only [List.filterMap, rollWindow_panelOnes, decompose_panelOnes]
  rw [mkRollingRec, rOnesRec1, dOnesRec]
  norm_num

theorem optDiv_none_right (x : Option ℝ) : optDiv x none = none := by
  cases x <;> rfl

theorem optDiv_none_left (x : Option ℝ) : optDiv none x = none := by
  cases x <;> rfl

theorem clip_of_abs_le {cap s : ℝ} (h : |s| ≤ cap) : clip cap s = s := by
  obtain ⟨h1, h2⟩ := abs_le.mp h
  unfold clip
  rw [max_eq_right h1, min_eq_right h2]

theorem mkEndpoint_share_spec (s e : Row) :
    (mkEndpoint s e).share_eps_pct =
      (if 1e-12 < |(mkEndpoint s e).log_price| then some ((mkEndpoint s e).log_price)
        else none).map (fun dn => 100 * ((mkEndpoint s e).log_eps / dn)) ∧
    (mkEndpoint s e).share_multiple_pct =
      (if 1e-12 < |(mkEndpoint s e).log_price| then some ((mkEndpoint s e).log_price)
        else none).map (fun dn => 100 * ((mkEndpoint s e).log_multiple / dn)) :=
  ⟨rfl, rfl⟩

/-! ### Claims -/

/-- Claim C1: for every endpoint decomposition computed from valid
observations (positive price and multiple, implied value equal to
price / multiple at both endpoint rows), the returned log price change
equals the log value change plus the log multiple change exactly. -/
theorem decompose_log_additive (panel : List Row) (d : EndpointResult)
    (hd : decompose_endpoints panel = .ok d)
    (hgood : ∀ x ∈ panel.filter validRow, goodRow x) :
    d.log_price = d.log_eps + d.log_multiple :=
  decompose_ok_additive hd hgood

/-- Claim C1 witness: the identity evaluated on the concrete two-row
panel `panelExp`. -/
theorem decompose_log_additive_inst :
    dExpRec.log_price = dExpRec.log_eps + dExpRec.log_multiple :=
  decompose_log_additive panelExp dExpRec decompose_panelExp (by
    rw [filter_valid_panelExp]
    intro x hx
    simp only [panelExp, List.mem_cons, List.mem_singleton, List.not_mem_nil,
      or_false] at hx
    rcases hx with h | h <;> subst h
    · exact ⟨1, 1, rfl, rfl, one_pos, one_pos, by norm_num⟩
    · exact ⟨Real.exp 1, Real.exp 1, rfl, rfl, Real.exp_pos 1, Real.exp_pos 1, by
        rw [div_self (Real.exp_ne_zero 1)]⟩)

/-- Claim C2 counterexample: with window width 0 and a series of two
valid rows, the rolling decomposer returns the empty sequence as an
ordinary value — no `InvalidParameterError` is raised anywhere (the
source performs no window-width validation; every width-0 window is
silently skipped by the `except` clause). -/
theorem rolling_zero_window_value :
    rolling_decomposition panelExp "T" 0 (5 / 100) 200 = [] ∧
      (panelExp.filter validRow).length = 2 :=
  ⟨rolling_zero_window panelExp "T" (5 / 100) 200, by
    rw [filter_valid_panelExp]; simp [panelExp]⟩

/-- Claim C2 amended: for every input series, calling the rolling
decomposer with window width 0 returns an empty output sequence and
raises no error (rather than failing with `InvalidParameterError`). -/
theorem rolling_zero_window_empty (panel : List Row) (t : String)
    (minAbs cap : ℝ) :
    rolling_decomposition panel t 0 minAbs cap = [] :=
  rolling_zero_window panel t minAbs cap

/-- Claim C3: the endpoint decomposer fails with the
insufficient-data error iff the input series, filtered to rows where
price, multiple and implied value are all defined and positive, has
fewer than 2 rows; with 2 or more such rows it returns a result.  The
hypothesis `hpos` records the loader invariant that every defined field
is positive, under which the source's filter (presence only) coincides
with the claim's filter (presence and positivity). -/
theorem decompose_error_iff_short (panel : List Row)
    (hpos : ∀ r ∈ panel, fieldsPos r) :
    (decompose_endpoints panel = .error .insufficientData ↔
      (panel.filter validPosRow).length < 2) ∧
    (2 ≤ (panel.filter validPosRow).length →
      ∃ d, decompose_endpoints panel = .ok d) := by
  have hfe : panel.filter validRow = panel.filter validPosRow := by
    apply List.filter_congr
    intro x hx
    obtain ⟨h1, h2, h3⟩ := hpos x hx
    unfold validRow validPosRow
    cases hp : x.price with
    | none => simp
    | some p =>
      cases hm : x.pe with
      | none => simp
      | some m =>
        cases he : x.eps with
        | none => simp
        | some v =>
          simp [decide_eq_true (h1 p hp), decide_eq_true (h2 m hm),
            decide_eq_true (h3 v he)]
  constructor
  · rw [decompose_error_iff, hfe]
  · intro h2l
    exact decompose_ok_of_two_le (by rw [hfe]; exact h2l)

/-- Claim C3 witness: evaluated on the concrete panel `panelExp`, whose
rows all carry positive fields. -/
theorem decompose_error_iff_short_inst :
    (decompose_endpoints panelExp = .error .insufficientData ↔
      (panelExp.filter validPosRow).length < 2) ∧
    (2 ≤ (panelExp.filter validPosRow).length →
      ∃ d, decompose_endpoints panelExp = .ok d) :=
  decompose_error_iff_short panelExp (by
    intro r hr
    simp only [panelExp, List.mem_cons, List.mem_singleton, List.not_mem_nil,
      or_false] at hr
    rcases hr with h | h <;> subst h
    · exact ⟨fun p h => by simp at h; subst h; norm_num,
        fun m h => by simp at h; subst h; norm_num,
        fun v h => by simp at h; subst h; norm_num⟩
    · refine ⟨fun p h => ?_, fun m h => ?_, fun v h => ?_⟩
      · simp at h; subst h; exact Real.exp_pos 1
      · simp at h; subst h; exact Real.exp_pos 1
      · simp at h; subst h; norm_num)

/-- Claim C7: for every input series whose number of valid rows is at
most the window width, the rolling decomposer returns the empty output
sequence (and raises no error). -/
theorem rolling_empty_of_short (panel : List Row) (t : String) (w : ℕ)
    (minAbs cap : ℝ) (h : (panel.filter validRow).length ≤ w) :
    rolling_decomposition panel t w minAbs cap = [] := by
  unfold rolling_decomposition
  have hlen : (sortPanel panel).length = (panel.filter validRow).length :=
    List.Perm.length_eq (List.perm_insertionSort dateLe _)
  rw [List.drop_eq_nil_of_le (by rw [List.length_range]; omega),
    List.filterMap_nil]

/-- Claim C7 witness: the two-valid-row panel `panelExp` with window
width 5 yields the empty sequence. -/
theorem rolling_empty_of_short_inst :
    rolling_decomposition panelExp "T" 5 0 200 = [] :=
  rolling_empty_of_short panelExp "T" 5 0 200
    (by rw [filter_valid_panelExp]; simp [panelExp])

/-- Claim C8: the implied-value deriver returns `price / multiple` when
both inputs are present and strictly positive, and `none` in every other
case (non-positive or missing inputs).  It is a total pure function: no
error is signalled, absence is represented by `none`. -/
theorem implied_value_contract (price pe : Option ℝ) :
    derive_implied price pe =
      price.bind (fun p => pe.bind (fun m =>
        if 0 < p ∧ 0 < m then some (p / m) else none)) := by
  cases price with
  | none => rfl
  | some p =>
    cases pe with
    | none => simp [derive_implied, safe_pos, optDiv_none_right]
    | some m =>
      by_cases hp : 0 < p
      · by_cases hm : 0 < m
        · have hq : 0 < p / m := div_pos hp hm
          simp [derive_implied, safe_pos, optDiv, hp, hm, hq]
        · simp [derive_implied, safe_pos, optDiv, hp, hm]
      · simp [derive_implied, safe_pos, optDiv_none_left, hp]

/-- Claim C4: for every rolling-decomposition record,
`stable_for_shares` is true iff `|log_price_change| ≥ minAbsLogPrice`
(the comparison is inclusive, so equality at the boundary is stable;
over exact reals every log change is finite, so the source's
`np.isfinite` conjunct always holds). -/
theorem stable_iff_threshold (panel : List Row) (t : String) (w : ℕ)
    (minAbs cap : ℝ) (r : RollingRec)
    (hr : r ∈ rolling_decomposition panel t w minAbs cap) :
    r.stable_for_shares = true ↔ minAbs ≤ |r.log_price| := by
  obtain ⟨i, d, hd, rfl⟩ := exists_of_mem_rolling hr
  simp only [mkRollingRec]
  exact ⟨of_decide_eq_true, decide_eq_true⟩

/-- Claim C4 witness: on `panelOnes` with threshold 0 the single record
sits exactly at the boundary (`|log_price| = 0 = minAbsLogPrice`) and is
stable. -/
theorem stable_iff_threshold_inst :
    rOnesRec0.stable_for_shares = true ↔ (0 : ℝ) ≤ |rOnesRec0.log_price| :=
  stable_iff_threshold panelOnes "T" 1 0 200 rOnesRec0
    (by rw [roll_panelOnes0]; exact List.mem_singleton.mpr rfl)

/-- Claim C5: for every stable rolling record, each emitted percentage
share is the window's unclamped share clamped independently to
`[-shareCapPct, shareCapPct]`: when the unclamped share `s` satisfies
`|s| > cap` the emitted value is `sign s * cap`, otherwise it is `s`
itself. -/
theorem shares_clamped (panel : List Row) (t : String) (w : ℕ)
    (minAbs cap : ℝ) (r : RollingRec) (hcap : 0 < cap)
    (hr : r ∈ rolling_decomposition panel t w minAbs cap)
    (hst : r.stable_for_shares = true) :
    ∃ i d, decompose_endpoints (rollWindow panel w i) = .ok d ∧
      (∀ s, d.share_eps_pct = some s →
        r.share_eps_pct = some (if cap < |s| then Real.sign s * cap else s)) ∧
      (∀ s, d.share_multiple_pct = some s →
        r.share_multiple_pct = some (if cap < |s| then Real.sign s * cap else s)) := by
  obtain ⟨i, d, hd, rfl⟩ := exists_of_mem_rolling hr
  have hth : minAbs ≤ |d.log_price| := by
    simp only [mkRollingRec] at hst
    exact of_decide_eq_true hst
  refine ⟨i, d, hd, ?_, ?_⟩
  · intro s hs
    show (if minAbs ≤ |d.log_price| then d.share_eps_pct.map (clip cap)
      else none) = _
    rw [if_pos hth, hs, Option.map_some', clip_eq_of_pos hcap]
  · intro s hs
    show (if minAbs ≤ |d.log_price| then d.share_multiple_pct.map (clip cap)
      else none) = _
    rw [if_pos hth, hs, Option.map_some', clip_eq_of_pos hcap]

/-- Claim C5 witness: the clamping relation evaluated on the single
stable record of `rolling_decomposition panelExp "T" 1 0 200`. -/
theorem shares_clamped_inst :
    ∃ i d, decompose_endpoints (rollWindow panelExp 1 i) = .ok d ∧
      (∀ s, d.share_eps_pct = some s →
        rExpRec.share_eps_pct =
          some (if (200 : ℝ) < |s| then Real.sign s * 200 else s)) ∧
      (∀ s, d.share_multiple_pct = some s →
        rExpRec.share_multiple_pct =
          some (if (200 : ℝ) < |s| then Real.sign s * 200 else s)) :=
  shares_clamped panelExp "T" 1 0 200 rExpRec (by norm_num)
    (by rw [roll_panelExp]; exact List.mem_singleton.mpr rfl) rfl

/-- Claim C6: every emitted rolling record carries the three raw log
components of its window's endpoint decomposition unconditionally, and
when the record is not stable both percentage shares are absent
(`none`), not zero and not clipped values. -/
theorem logs_always_shares_gated (panel : List Row) (t : String) (w : ℕ)
    (minAbs cap : ℝ) (r : RollingRec)
    (hr : r ∈ rolling_decomposition panel t w minAbs cap) :
    (∃ i d, decompose_endpoints (rollWindow panel w i) = .ok d ∧
      r.log_price = d.log_price ∧ r.log_eps = d.log_eps ∧
      r.log_multiple = d.log_multiple) ∧
    (r.stable_for_shares = false →
      r.share_eps_pct = none ∧ r.share_multiple_pct = none) := by
  obtain ⟨i, d, hd, rfl⟩ := exists_of_mem_rolling hr
  refine ⟨⟨i, d, hd, rfl, rfl, rfl⟩, ?_⟩
  intro hst
  have hth : ¬ minAbs ≤ |d.log_price| := by
    simp only [mkRollingRec] at hst
    exact of_decide_eq_false hst
  constructor
  · show (if minAbs ≤ |d.log_price| then d.share_eps_pct.map (clip cap)
      else none) = none
    rw [if_neg hth]
  · show (if minAbs ≤ |d.log_price| then d.share_multiple_pct.map (clip cap)
      else none) = none
    rw [if_neg hth]

/-- Claim C6 witness: on `panelOnes` with threshold 1 the single record
is unstable, its log components are those of the endpoint decomposition
and both shares are absent. -/
theorem logs_always_shares_gated_inst :
    (∃ i d, decompose_endpoints (rollWindow panelOnes 1 i) = .ok d ∧
      rOnesRec1.log_price = d.log_price ∧ rOnesRec1.log_eps = d.log_eps ∧
      rOnesRec1.log_multiple = d.log_multiple) ∧
    (rOnesRec1.stable_for_shares = false →
      rOnesRec1.share_eps_pct = none ∧ rOnesRec1.share_multiple_pct = none) :=
  logs_always_shares_gated panelOnes "T" 1 1 200 rOnesRec1
    (by rw [roll_panelOnes1]; exact List.mem_singleton.mpr rfl)

/-- Claim C9: evaluation of the loader at a failing input.  Two raw
rows fall in the same month; the later row has a missing (non-positive)
price and the earlier row a missing multiple.  `groupby("date").last()`
takes the last non-null entry per column, so the produced observation
mixes the two rows — price from the earlier row, multiple from the later
one — instead of keeping exactly the last row in input order (which,
normalized, would be `{price := none, pe := some 7, eps := none}`). -/
theorem load_monthly_mixes_rows :
    load_pe_monthly rawEx =
      [{ date := 0, price := some 10, pe := some 7, eps := some (10 / 7) }] := by
  unfold load_pe_monthly
  norm_num [rawEx, safe_pos, optDiv, lastSome, List.insertionSort,
    List.orderedInsert, ldateLe, List.dedup, List.pwFilter]

/-- Claim C10: for every stable rolling window whose two unclamped
percentage shares both lie within `[-shareCapPct, shareCapPct]`, the
emitted value share and multiple share are the unclamped shares
themselves and sum to exactly 100 (the panel rows are loader-shaped:
positive price and multiple with `eps = price / pe`). -/
theorem shares_sum_hundred (panel : List Row) (t : String) (w : ℕ)
    (minAbs cap : ℝ) (r : RollingRec)
    (hgood : ∀ x ∈ panel, validRow x = true → goodRow x)
    (hr : r ∈ rolling_decomposition panel t w minAbs cap)
    (hst : r.stable_for_shares = true) :
    ∃ i d, decompose_endpoints (rollWindow panel w i) = .ok d ∧
      ∀ sv sm, d.share_eps_pct = some sv → d.share_multiple_pct = some sm →
        |sv| ≤ cap → |sm| ≤ cap →
        r.share_eps_pct = some sv ∧ r.share_multiple_pct = some sm ∧
          sv + sm = 100 := by
  obtain ⟨i, d, hd, rfl⟩ := exists_of_mem_rolling hr
  have hth : minAbs ≤ |d.log_price| := by
    simp only [mkRollingRec] at hst
    exact of_decide_eq_true hst
  have hgood2 : ∀ x ∈ (rollWindow panel w i).filter validRow, goodRow x := by
    intro x hx
    obtain ⟨hx1, hx2⟩ := List.mem_filter.mp hx
    have hx3 : x ∈ sortPanel panel :=
      List.mem_of_mem_drop (List.mem_of_mem_take hx1)
    have hx4 : x ∈ panel.filter validRow :=
      ((List.perm_insertionSort dateLe _).mem_iff).mp hx3
    obtain ⟨hx5, hx6⟩ := List.mem_filter.mp hx4
    exact hgood x hx5 hx6
  have hid : d.log_price = d.log_eps + d.log_multiple :=
    decompose_ok_additive hd hgood2
  refine ⟨i, d, hd, ?_⟩
  intro sv sm hsv hsm hsvc hsmc
  obtain ⟨s, e, _, _, rfl⟩ := decompose_ok_shape hd
  rw [(mkEndpoint_share_spec s e).1] at hsv
  rw [(mkEndpoint_share_spec s e).2] at hsm
  by_cases hc : (1e-12 : ℝ) < |(mkEndpoint s e).log_price|
  · rw [if_pos hc, Option.map_some', Option.some_inj] at hsv hsm
    have hlp : (mkEndpoint s e).log_price ≠ 0 :=
      abs_pos.mp (lt_trans (by norm_num) hc)
    refine ⟨?_, ?_, ?_⟩
    · show (if minAbs ≤ |(mkEndpoint s e).log_price| then
        (mkEndpoint s e).share_eps_pct.map (clip cap) else none) = some sv
      rw [if_pos hth, (mkEndpoint_share_spec s e).1, if_pos hc,
        Option.map_some', Option.map_some', hsv, clip_of_abs_le hsvc]
    · show (if minAbs ≤ |(mkEndpoint s e).log_price| then
        (mkEndpoint s e).share_multiple_pct.map (clip cap) else none) = some sm
      rw [if_pos hth, (mkEndpoint_share_spec s e).2, if_pos hc,
        Option.map_some', Option.map_some', hsm, clip_of_abs_le hsmc]
    · rw [← hsv, ← hsm]
      field_simp
      linarith [hid]
  · rw [if_neg hc] at hsv
    exact absurd hsv (by simp)

/-- Claim C10 witness: on the single stable record of
`rolling_decomposition panelExp "T" 1 0 200` (unclamped shares 0 and
100, both within the cap 200). -/
theorem shares_sum_hundred_inst :
    ∃ i d, decompose_endpoints (rollWindow panelExp 1 i) = .ok d ∧
      ∀ sv sm, d.share_eps_pct = some sv → d.share_multiple_pct = some sm →
        |sv| ≤ 200 → |sm| ≤ 200 →
        rExpRec.share_eps_pct = some sv ∧
          rExpRec.share_multiple_pct = some sm ∧ sv + sm = 100 :=
  shares_sum_hundred panelExp "T" 1 0 200 rExpRec
    (by
      intro x hx _
      simp only [panelExp, List.mem_cons, List.mem_singleton,
        List.not_mem_nil, or_false] at hx
      rcases hx with h | h <;> subst h
      · exact ⟨1, 1, rfl, rfl, one_pos, one_pos, by norm_num⟩
      · exact ⟨Real.exp 1, Real.exp 1, rfl, rfl, Real.exp_pos 1,
          Real.exp_pos 1, by rw [div_self (Real.exp_ne_zero 1)]⟩)
    (by rw [roll_panelExp]; exact List.mem_singleton.mpr rfl) rfl

end PvF
